import Mathlib

set_option maxHeartbeats 1000000

/-!
Shallow embedding of the schema-normalization and integration engine of
src/clean_data.py: the wide-to-long reshaper, the long-format normalizer, the
magnitude-based measure classifier, the cleaner, the per-file loop of main and
the merge stage.  Strings are lists of characters; nullable Spark cells are
Option-valued; dataframe schemas are lists of column names.
-/

/-- Strings as lists of characters. -/
abbrev Str := List Char

/-- Python str.lower and SQL lower on the ASCII data of this pipeline. -/
def lowNm (s : Str) : Str := s.map Char.toLower

/-- Drop leading characters satisfying p. -/
def ldropBy (p : Char → Bool) (s : Str) : Str := s.dropWhile p

/-- Drop trailing characters satisfying p. -/
def rdropBy (p : Char → Bool) (s : Str) : Str := (s.reverse.dropWhile p).reverse

/-- Drop characters satisfying p from both ends. -/
def trimBy (p : Char → Bool) (s : Str) : Str := rdropBy p (ldropBy p s)

def isSpaceChar (c : Char) : Bool := c = ' '

/-- Spark trim: removes leading and trailing space characters. -/
def sparkTrim (s : Str) : Str := trimBy isSpaceChar s

/-- Python str.strip with no argument: removes surrounding whitespace. -/
def pyStrip (s : Str) : Str := trimBy Char.isWhitespace s

/-- Python str.isdigit on ASCII data: nonempty and all decimal digits. -/
def pyIsDigit (s : Str) : Bool := !s.isEmpty && s.all Char.isDigit

/-- Python substring membership, the in operator on str. -/
def containsSub (sub s : Str) : Bool := s.tails.any (fun t => sub.isPrefixOf t)

/-- One left-to-right pass of the regex replaceAll with empty replacement for
the pattern compiled from the Python source text r"\\s+".  After Python
escaping the pattern text is backslash backslash s plus, which the regex
engine reads as a literal backslash followed by one or more letters s; it is
not a whitespace pattern.  The Boolean flag records that the scanner sits
directly after a match, where further letters s still extend the greedy s-run
being deleted. -/
def remAux : Bool → Str → Str
  | _, [] => []
  | inRun, c :: rest =>
    if inRun ∧ c = 's' then remAux true rest
    else if c = '\\' ∧ rest.head? = some 's' then remAux true rest
    else c :: remAux false rest

/-- regexp_replace(col, r"\\s+", "") applied to one cell. -/
def remBS (s : Str) : Str := remAux false s

/-- Whether the string still contains a match of that pattern, that is a
backslash directly followed by the letter s. -/
def hasBS : Str → Bool
  | [] => false
  | [_] => false
  | a :: b :: rest => (a = '\\' && b = 's') || hasBS (b :: rest)

/-- A row of a normalized measure table: the canonical columns country_name,
country_code, year and one measure value, each nullable. -/
structure NRow where
  country_name : Option Str
  country_code : Option Str
  year : Option Int
  value : Option ℚ
deriving DecidableEq

/-- A normalized measure table; hasCodeCol records whether a country_code
column is present, which the Cleaner tests before touching it. -/
structure MeasureTable where
  hasCodeCol : Bool
  rows : List NRow
deriving DecidableEq

/-- The country_code transform of simple_clean:
trim(regexp_replace(code, r"\\s+", "")). -/
def cleanCode (s : Str) : Str := sparkTrim (remBS s)

/-- The per-row transforms of simple_clean: trim country_name and, when the
column exists, apply the code transform to country_code; nulls pass through. -/
def cleanRow (hc : Bool) (r : NRow) : NRow :=
  { r with
    country_name := r.country_name.map sparkTrim,
    country_code := if hc then r.country_code.map cleanCode else r.country_code }

/-- The row filters of simple_clean: year not null and measure value not
null. -/
def keepRow (r : NRow) : Bool := !r.year.isNone && !r.value.isNone

/-- simple_clean of src/clean_data.py: normalize the identifier strings, then
drop rows with a null year and rows with a null measure value. -/
def simple_clean (t : MeasureTable) : MeasureTable :=
  ⟨t.hasCodeCol, (t.rows.map (cleanRow t.hasCodeCol)).filter keepRow⟩

inductive MeasureKind | population | gdp
deriving DecidableEq

/-- The magnitude classifier of main: take the first 100 rows, average the
absolute values of the non-null value cells among them, and report population
exactly when the average is truthy in Python, so nonzero and not None, and
exceeds 1e6; anything else falls through to gdp. -/
def classify_measure (rows : List NRow) : MeasureKind :=
  let sample := rows.take 100
  let vals := sample.filterMap (fun r => r.value)
  let avg : Option ℚ :=
    if vals.isEmpty then none
    else some ((vals.map (fun v => |v|)).sum / (vals.length : ℚ))
  match avg with
  | some a => if a ≠ 0 ∧ a > 1000000 then .population else .gdp
  | none => .gdp

inductive FileTag | population | gdp | unknown
deriving DecidableEq

def popS : Str := "pop".data
def populationS : Str := "population".data
def gdpS : Str := "gdp".data
def grossS : Str := "gross".data

/-- The per-file dispatch of main on the lowercased base file name. -/
def dispatch_measure (basename : Str) : FileTag :=
  let name := lowNm basename
  if containsSub popS name || containsSub populationS name then .population
  else if containsSub gdpS name || containsSub grossS name then .gdp
  else .unknown

def valueS : Str := "value".data
def valS : Str := "val".data
def yearS : Str := "year".data
def countryNameL : Str := "country name".data
def countryL : Str := "country".data
def countryCodeL : Str := "country code".data

/-- Whether a column name matches a preferred value-column name of
read_and_normalize: value, the measure name, or val, case-insensitively. -/
def isValueColName (measure c : Str) : Bool :=
  decide (lowNm c = valueS ∨ lowNm c = lowNm measure ∨ lowNm c = valS)

/-- Whether a column survives the fallback filter of read_and_normalize: its
lowercase name is none of country name, country, country code, year. -/
def isNonIdName (c : Str) : Bool :=
  !(decide (lowNm c = countryNameL ∨ lowNm c = countryL ∨
            lowNm c = countryCodeL ∨ lowNm c = yearS))

/-- The value-column selection of the long branch of read_and_normalize: scan
the columns from the end and take the first candidate whose lowercase name is
value, the measure name or val; if none matches, take the last column passing
the fallback filter; if none passes, take the last column.  The none result
models the IndexError of indexing an empty column list. -/
def selectValueCol (cols : List Str) (measure : Str) : Option Str :=
  match cols.reverse.find? (isValueColName measure) with
  | some c => some c
  | none =>
    let nonId := cols.filter isNonIdName
    if nonId.isEmpty then cols.getLast? else nonId.getLast?

/-- Value-column selection as the specification words it: the names value,
then the measure name, then val are tried in that priority order, each
searched over the columns from the end; the fallback is unchanged.  This
definition follows the words of the spec, for comparison with selectValueCol,
which is written from the code. -/
def selectValueColSpec (cols : List Str) (measure : Str) : Option Str :=
  match cols.reverse.find? (fun c => decide (lowNm c = valueS)) with
  | some c => some c
  | none =>
    match cols.reverse.find? (fun c => decide (lowNm c = lowNm measure)) with
    | some c => some c
    | none =>
      match cols.reverse.find? (fun c => decide (lowNm c = valS)) with
      | some c => some c
      | none =>
        let nonId := cols.filter isNonIdName
        if nonId.isEmpty then cols.getLast? else nonId.getLast?

/-- The year-like column test of wide_to_long: the stripped name is all
decimal digits, and of length exactly four; isdigit is checked first. -/
def is_year_col (c : Str) : Bool :=
  pyIsDigit (pyStrip c) && decide ((pyStrip c).length = 4)

/-- Cell access by column name: the position of the first column of that name
in the header, then that position of the row. -/
def cellAt (cols : List Str) (row : List α) (c : Str) : Option α :=
  match cols.findIdx? (fun d => decide (d = c)) with
  | some i => row[i]?
  | none => none

/-- A wide table: a header of column names and rows of cells. -/
structure WTable (α : Type) where
  cols : List Str
  rows : List (List α)

/-- A reshaped output row: the identifier cells, the year, which the stack
expression emits as the year column name itself, and the cell value. -/
structure LRow (α : Type) where
  ids : List (Option α)
  year : Str
  value : Option α
deriving DecidableEq

/-- wide_to_long of src/clean_data.py: detect year-like columns, failing with
none when there are none; otherwise emit, for every input row and then for
every year column in original header order, one output row holding the
identifier cells, the year column name and the cell under that column. -/
def wide_to_long (t : WTable α) (id_vars : List Str) : Option (List (LRow α)) :=
  let year_cols := t.cols.filter is_year_col
  if year_cols.isEmpty then none
  else some (t.rows.flatMap (fun r =>
    year_cols.map (fun y => ⟨id_vars.map (fun c => cellAt t.cols r c), y, cellAt t.cols r y⟩)))

/-- The row list that wide_to_long emits when year-like columns exist. -/
def reshape_rows (t : WTable α) (id_vars : List Str) : List (LRow α) :=
  t.rows.flatMap (fun r =>
    (t.cols.filter is_year_col).map (fun y =>
      ⟨id_vars.map (fun c => cellAt t.cols r c), y, cellAt t.cols r y⟩))

/-- A row of the merged output table. -/
structure MergedRow where
  country_name : Option Str
  country_code : Option Str
  year : Option Int
  population : Option ℚ
  gdp : Option ℚ
deriving DecidableEq

/-- SQL coalesce of two nullable values. -/
def coalesce (a b : Option α) : Option α :=
  match a with
  | some x => some x
  | none => b

/-- SQL equality on a join key: null matches nothing, not even null. -/
def sqlEq [DecidableEq α] (a b : Option α) : Bool :=
  match a, b with
  | some x, some y => decide (x = y)
  | _, _ => false

/-- The join condition of the merge: country_code and year both match under
SQL equality. -/
def join_match (p g : NRow) : Bool :=
  sqlEq p.country_code g.country_code && sqlEq p.year g.year

/-- A population row with no gdp match, as the coalescing select leaves it:
the gdp side is all null. -/
def leftRow (p : NRow) : MergedRow :=
  ⟨p.country_name, p.country_code, p.year, p.value, none⟩

/-- A gdp row with no population match: the population side is all null. -/
def rightRow (g : NRow) : MergedRow :=
  ⟨g.country_name, g.country_code, g.year, none, g.value⟩

/-- A matched pair through the coalescing select; the year column of a join
with a key list is likewise the coalesced key column. -/
def bothRow (p g : NRow) : MergedRow :=
  ⟨coalesce p.country_name g.country_name, coalesce p.country_code g.country_code,
   coalesce p.year g.year, p.value, g.value⟩

/-- The full outer join of main on (country_code, year), already projected
through the coalescing select: for each population row its matches, or the
row alone with a null gdp; then the gdp rows with no match, with a null
population. -/
def outer_join (pop gdp : List NRow) : List MergedRow :=
  (pop.flatMap (fun p =>
    if (gdp.filter (join_match p)).isEmpty then [leftRow p]
    else (gdp.filter (join_match p)).map (bothRow p)))
  ++ ((gdp.filter (fun g => !(pop.any (fun p => join_match p g)))).map rightRow)

/-- The dedup key of dropDuplicates: the country_code and year columns.
dropDuplicates groups null keys together, unlike the SQL join. -/
def jkey (r : MergedRow) : Option Str × Option Int := (r.country_code, r.year)

/-- dropDuplicates on (country_code, year), keeping the first row of each
key; seen accumulates the keys already emitted. -/
def dropDupAux (seen : List (Option Str × Option Int)) : List MergedRow → List MergedRow
  | [] => []
  | r :: rest =>
    if jkey r ∈ seen then dropDupAux seen rest
    else r :: dropDupAux (jkey r :: seen) rest

def dropDuplicates (l : List MergedRow) : List MergedRow := dropDupAux [] l

/-- The merge stage when both measure tables exist. -/
def merge_tables (pop gdp : List NRow) : List MergedRow :=
  dropDuplicates (outer_join pop gdp)

/-- The merge stage when only the population table exists: project it and fill
gdp with null. -/
def merge_single_pop (pop : List NRow) : List MergedRow :=
  dropDuplicates (pop.map leftRow)

/-- The merge stage when only the gdp table exists: project it and fill
population with null. -/
def merge_single_gdp (gdp : List NRow) : List MergedRow :=
  dropDuplicates (gdp.map rightRow)

/-- Number of rows of a merged table carrying a given key. -/
def countKey (l : List MergedRow) (k : Option Str × Option Int) : Nat :=
  l.countP (fun r => decide (jkey r = k))

/-- A (country_code, year) key is present in a measure table. -/
def presentIn (l : List NRow) (k : Option Str × Option Int) : Prop :=
  ∃ r ∈ l, (r.country_code, r.year) = k

def countryNameHdrS : Str := "Country Name".data
def countryCodeHdrS : Str := "Country Code".data
def country_nameS : Str := "country_name".data
def country_codeS : Str := "country_code".data

/-- Case-insensitive Spark resolution of a column name against a schema. -/
def resolvable (cols : List Str) (nm : Str) : Bool :=
  cols.any (fun c => decide (lowNm c = lowNm nm))

/-- The identifier-column selection of the wide branch of read_and_normalize:
the columns whose lowercase name is a lowercased default, Country Name or
Country Code; if none match, the first two columns. -/
def id_vars_of (cols : List Str) : List Str :=
  let m := cols.filter (fun c => decide (lowNm c = countryNameL ∨ lowNm c = countryCodeL))
  if m.isEmpty then cols.take 2 else m

/-- Python dict assignment d[k] = v: replace the value at an existing key,
else append the new binding. -/
def dictSet (d : List (Str × Str)) (k v : Str) : List (Str × Str) :=
  if d.any (fun e => decide (e.1 = k)) then
    d.map (fun e => if e.1 = k then (k, v) else e)
  else d ++ [(k, v)]

/-- The rename_map construction of the wide branch of read_and_normalize.
With fewer than two identifier columns both assignments use the same dict
key, so the second overwrites the first and only the country_code binding
survives. -/
def build_rename_map (id_vars : List Str) : List (Str × Str) :=
  if id_vars.length ≥ 2 then
    dictSet (dictSet [] (id_vars.headD []) country_nameS) (id_vars.getD 1 []) country_codeS
  else
    dictSet (dictSet [] (id_vars.headD []) country_nameS) (id_vars.headD []) country_codeS

/-- withColumnRenamed for one binding: a no-op when the column is absent. -/
def renameOne (cols : List Str) (old new : Str) : List Str :=
  cols.map (fun c => if c = old then new else c)

/-- Sequential application of the rename_map items. -/
def applyRenames (cols : List Str) : List (Str × Str) → List Str
  | [] => cols
  | (o, n) :: rest => applyRenames (renameOne cols o n) rest

/-- read_and_normalize at the schema level.  Header names are stripped; a
header lowercasing to year selects the long branch, which requires Country
Name and Country Code to resolve and yields the four canonical columns, the
measure name last; otherwise the wide branch stacks the year-like columns
over the identifier columns, renames the identifiers through the rename map
and renames value to the measure name.  Error results model the exceptions
that the per-file loop of main catches. -/
def read_and_normalize_s (cols : List Str) (measure : Str) : Except Str (List Str) :=
  let colsT := cols.map pyStrip
  if yearS ∈ colsT.map lowNm then
    if resolvable colsT countryNameHdrS ∧ resolvable colsT countryCodeHdrS then
      match selectValueCol colsT measure with
      | some _ => .ok [country_nameS, country_codeS, yearS, measure]
      | none => .error ("empty header".data)
    else .error ("cannot resolve Country Name or Country Code".data)
  else
    let id_vars := id_vars_of colsT
    let year_cols := colsT.filter is_year_col
    if year_cols.isEmpty then .error ("could not interpret file".data)
    else
      let stacked := id_vars ++ [yearS, valueS]
      .ok (renameOne (applyRenames stacked (build_rename_map id_vars)) valueS measure)

/-- Whether simple_clean analyzes successfully against a schema: it references
country_name and year unconditionally, while country_code and the measure
column are guarded by membership tests. -/
def clean_ok_s (cols : List Str) : Bool :=
  resolvable cols country_nameS && resolvable cols yearS

/-- A raw input file at the granularity this model needs: its base name, its
header, and the normalized rows that the classifier branch samples. -/
structure CsvFile where
  fname : Str
  cols : List Str
  nrows : List NRow

/-- The running state of the per-file loop of main, plus the skip log. -/
structure LoopState where
  pop : Option (List Str)
  gdp : Option (List Str)
  skipped : List Str
deriving DecidableEq

/-- One iteration of the per-file loop of main.  Every error raised inside
the iteration is caught and recorded as a skip, and the loop moves on.  Note
that the dataframe variable is assigned as soon as normalization succeeds,
before cleaning is attempted, so a cleaning failure leaves the half-processed
table in the state. -/
def step_file (st : LoopState) (f : CsvFile) : LoopState :=
  match dispatch_measure f.fname with
  | .population =>
    match read_and_normalize_s f.cols populationS with
    | .error _ => { st with skipped := st.skipped ++ [f.fname] }
    | .ok c =>
      if clean_ok_s c then { st with pop := some c }
      else { st with pop := some c, skipped := st.skipped ++ [f.fname] }
  | .gdp =>
    match read_and_normalize_s f.cols gdpS with
    | .error _ => { st with skipped := st.skipped ++ [f.fname] }
    | .ok c =>
      if clean_ok_s c then { st with gdp := some c }
      else { st with gdp := some c, skipped := st.skipped ++ [f.fname] }
  | .unknown =>
    match read_and_normalize_s f.cols valueS with
    | .error _ => { st with skipped := st.skipped ++ [f.fname] }
    | .ok c =>
      if classify_measure f.nrows = .population then
        let c2 := renameOne c valueS populationS
        if clean_ok_s c2 then { st with pop := some c2 }
        else { st with pop := some c2, skipped := st.skipped ++ [f.fname] }
      else
        let c2 := renameOne c valueS gdpS
        if clean_ok_s c2 then { st with gdp := some c2 }
        else { st with gdp := some c2, skipped := st.skipped ++ [f.fname] }

/-- The state after the per-file loop of main has processed every file. -/
def final_state (files : List CsvFile) : LoopState :=
  files.foldl step_file ⟨none, none, []⟩

/-- The body of the key-standardization loop before the join: a table lacking
a country_code column gets an all-null country_code column appended. -/
def fix_missing_code (df : Option (List Str)) : Option (List Str) :=
  match df with
  | none => none
  | some c => if country_codeS ∈ c then some c else some (c ++ [country_codeS])

/-- The key-standardization loop as written in main: the loop rebinds its
local variable to the fixed table and never writes it back, so the pair it
leaves behind is the input pair. -/
def standardize_join_keys (pop gdp : Option (List Str)) :
    Option (List Str) × Option (List Str) :=
  let _fixed_pop := fix_missing_code pop
  let _fixed_gdp := fix_missing_code gdp
  (pop, gdp)

/-- The merge stage at the schema level.  With both tables present, the
coalescing select resolves country_name and country_code on both sides, year
on both sides and each measure on its side; with one table, the projection
resolves its four canonical columns.  An unresolved column is the
AnalysisException this stage raises outside any handler. -/
def merge_stage_s : Option (List Str) × Option (List Str) → Except Str (Option (List Str))
  | (some p, some g) =>
    if resolvable p country_nameS ∧ resolvable g country_nameS ∧
       resolvable p country_codeS ∧ resolvable g country_codeS ∧
       resolvable p yearS ∧ resolvable g yearS ∧
       resolvable p populationS ∧ resolvable g gdpS then
      .ok (some [country_nameS, country_codeS, yearS, populationS, gdpS])
    else .error ("AnalysisException".data)
  | (some p, none) =>
    if resolvable p country_nameS ∧ resolvable p country_codeS ∧
       resolvable p yearS ∧ resolvable p populationS then
      .ok (some [country_nameS, country_codeS, yearS, populationS, gdpS])
    else .error ("AnalysisException".data)
  | (none, some g) =>
    if resolvable g country_nameS ∧ resolvable g country_codeS ∧
       resolvable g yearS ∧ resolvable g gdpS then
      .ok (some [country_nameS, country_codeS, yearS, gdpS, populationS])
    else .error ("AnalysisException".data)
  | (none, none) => .ok none

/-- The whole run at the schema level: the per-file loop, the discarded
key-standardization loop, then the merge stage. -/
def run_pipeline_s (files : List CsvFile) : Except Str (Option (List Str)) :=
  let st := final_state files
  merge_stage_s (standardize_join_keys st.pop st.gdp)

/-- A wide population file whose only identifier column is Country Name. -/
def bad_pop_file : CsvFile :=
  ⟨"pop_single.csv".data, [countryNameHdrS, "2020".data, "2021".data], []⟩

/-- A well-formed long-format gdp file. -/
def good_gdp_file : CsvFile :=
  ⟨"gdp.csv".data, [countryNameHdrS, countryCodeHdrS, "Year".data, "Value".data], []⟩

/-- A one-row measure table whose country_code has internal whitespace. -/
def ws_code_table : MeasureTable :=
  ⟨true, [⟨some ("Aland".data), some ("U SA".data), some 2020, some 100⟩]⟩

/-- The wide table of the spec example: Aland with years 2020 and 2021. -/
def aland_table : WTable Str :=
  ⟨[countryNameHdrS, countryCodeHdrS, "2020".data, "2021".data],
   [["Aland".data, "ALA".data, "100".data, "110".data]]⟩

/-- The population side of the spec merge example. -/
def usa_pop_rows : List NRow :=
  [⟨some ("United States".data), some ("USA".data), some 2020, some 331000000⟩]

/-- The gdp side of the spec merge example. -/
def usa_gdp_rows : List NRow :=
  [⟨some ("United States".data), some ("USA".data), some 2020, some 21000000000000⟩]

/-- A one-row sample whose value column averages 8e6. -/
def big_sample : List NRow := [⟨none, none, some 2020, some 8000000⟩]

/-- The column list of the priority-order counterexample: both value and val
occur, with val further to the right. -/
def c4_cols : List Str :=
  [countryNameHdrS, countryCodeHdrS, "Year".data, "value".data, "val".data]

/-- A population schema lacking country_code, feeding the key-standardization
loop. -/
def c7_pop_cols : List Str := [country_nameS, yearS, populationS]

/-- A complete gdp schema, feeding the key-standardization loop. -/
def c7_gdp_cols : List Str := [country_nameS, country_codeS, yearS, gdpS]

/-! Helper lemmas on dropWhile-based trimming. -/

theorem dropWhile_idem (p : Char → Bool) (l : Str) :
    (l.dropWhile p).dropWhile p = l.dropWhile p := by
  induction l with
  | nil => rfl
  | cons a t ih =>
    by_cases h : p a = true
    · simp [List.dropWhile_cons, h, ih]
    · simp [List.dropWhile_cons, h]

theorem length_dropWhile_le (p : Char → Bool) (l : Str) :
    (l.dropWhile p).length ≤ l.length := by
  induction l with
  | nil => simp
  | cons b u ihu =>
    by_cases hb : p b = true
    · rw [List.dropWhile_cons, if_pos hb]
      exact Nat.le_trans ihu (Nat.le_succ _)
    · rw [List.dropWhile_cons, if_neg hb]

theorem head_false_of_dropWhile_eq_self (p : Char → Bool) (l : Str) (c : Char)
    (h : l.dropWhile p = l) (hc : l.head? = some c) : p c = false := by
  cases l with
  | nil => simp at hc
  | cons a t =>
    have hac : a = c := by simpa using hc
    by_cases hp : p a = true
    · exfalso
      rw [List.dropWhile_cons, if_pos hp] at h
      have hle := length_dropWhile_le p t
      rw [h] at hle
      simp at hle
    · rw [← hac]
      simpa using hp

theorem ldropBy_idem (p : Char → Bool) (l : Str) :
    ldropBy p (ldropBy p l) = ldropBy p l := dropWhile_idem p l

theorem rdropBy_idem (p : Char → Bool) (l : Str) :
    rdropBy p (rdropBy p l) = rdropBy p l := by
  simp [rdropBy, dropWhile_idem]

theorem rdropBy_prefix (p : Char → Bool) (l : Str) :
    ∃ u, l = rdropBy p l ++ u := by
  refine ⟨(l.reverse.takeWhile p).reverse, ?_⟩
  rw [rdropBy, ← List.reverse_append, List.takeWhile_append_dropWhile, List.reverse_reverse]

theorem ldropBy_suffix (p : Char → Bool) (l : Str) :
    ∃ u, l = u ++ ldropBy p l :=
  ⟨l.takeWhile p, (List.takeWhile_append_dropWhile p l).symm⟩

theorem ldropBy_of_rdropBy (p : Char → Bool) (a : Str) (ha : ldropBy p a = a) :
    ldropBy p (rdropBy p a) = rdropBy p a := by
  cases hr : rdropBy p a with
  | nil => rfl
  | cons c t =>
    obtain ⟨u, hu⟩ := rdropBy_prefix p a
    rw [hr] at hu
    have hhead : a.head? = some c := by rw [hu]; rfl
    have hc : p c = false := head_false_of_dropWhile_eq_self p a c ha hhead
    simp [ldropBy, List.dropWhile_cons, hc]

theorem trimBy_idem (p : Char → Bool) (l : Str) :
    trimBy p (trimBy p l) = trimBy p l := by
  unfold trimBy
  rw [ldropBy_of_rdropBy p (ldropBy p l) (ldropBy_idem p l), rdropBy_idem]

theorem sparkTrim_idem (l : Str) : sparkTrim (sparkTrim l) = sparkTrim l :=
  trimBy_idem _ l

/-! Helper lemmas on the pattern remover. -/

theorem hasBS_of_cons (a : Char) (l : Str) (h : hasBS (a :: l) = false) :
    hasBS l = false := by
  cases l with
  | nil => rfl
  | cons b t =>
    rw [hasBS] at h
    simp only [Bool.or_eq_false_iff] at h
    exact h.2

theorem hasBS_append_left (m v : Str) (h : hasBS m = true) :
    hasBS (m ++ v) = true := by
  induction m with
  | nil => simp [hasBS] at h
  | cons a t ih =>
    cases t with
    | nil => simp [hasBS] at h
    | cons b u =>
      rw [hasBS] at h
      rcases Bool.or_eq_true_iff.mp h with h1 | h2
      · show hasBS (a :: b :: (u ++ v)) = true
        rw [hasBS, h1, Bool.true_or]
      · show hasBS (a :: b :: (u ++ v)) = true
        rw [hasBS]
        have := ih h2
        rw [List.cons_append] at this
        rw [this, Bool.or_true]

theorem hasBS_append_right (u m : Str) (h : hasBS m = true) :
    hasBS (u ++ m) = true := by
  induction u with
  | nil => simpa using h
  | cons a u' ih =>
    show hasBS (a :: (u' ++ m)) = true
    cases hum : u' ++ m with
    | nil =>
      rcases List.append_eq_nil.mp hum with ⟨_, rfl⟩
      simp [hasBS] at h
    | cons b t =>
      rw [hasBS]
      rw [hum] at ih
      rw [ih, Bool.or_true]

theorem hasBS_of_middle (u m v : Str) (h : hasBS (u ++ m ++ v) = false) :
    hasBS m = false := by
  by_contra hne
  have hm : hasBS m = true := by
    cases hb : hasBS m
    · exact absurd hb hne
    · rfl
  have := hasBS_append_right u (m ++ v) (hasBS_append_left m v hm)
  rw [← List.append_assoc] at this
  rw [this] at h
  exact Bool.true_eq_false ▸ (by simp at h)

theorem trimBy_hasBS (p : Char → Bool) (l : Str) (h : hasBS l = false) :
    hasBS (trimBy p l) = false := by
  obtain ⟨u, hu⟩ := ldropBy_suffix p l
  obtain ⟨v, hv⟩ := rdropBy_prefix p (ldropBy p l)
  have hdecomp : l = u ++ trimBy p l ++ v := by
    rw [List.append_assoc]
    show l = u ++ (rdropBy p (ldropBy p l) ++ v)
    rw [← hv, ← hu]
  exact hasBS_of_middle u (trimBy p l) v (hdecomp ▸ h)

theorem remAux_true_head (l : Str) : (remAux true l).head? ≠ some 's' := by
  induction l with
  | nil => simp [remAux]
  | cons c rest ih =>
    rw [remAux]
    by_cases h1 : True ∧ c = 's'
    · rw [if_pos (by simpa using h1.2)]
      exact ih
    · have hc : ¬ (c = 's') := fun hcs => h1 ⟨trivial, hcs⟩
      rw [if_neg (by simpa using hc)]
      by_cases h2 : c = '\\' ∧ rest.head? = some 's'
      · rw [if_pos h2]; exact ih
      · rw [if_neg h2]
        simpa using hc

theorem remAux_false_head (l : Str) (h : (remAux false l).head? = some 's') :
    l.head? = some 's' := by
  cases l with
  | nil => simp [remAux] at h
  | cons c rest =>
    rw [remAux] at h
    rw [if_neg (by simp)] at h
    by_cases h2 : c = '\\' ∧ rest.head? = some 's'
    · rw [if_pos h2] at h
      exact absurd h (remAux_true_head rest)
    · rw [if_neg h2] at h
      simp only [List.head?_cons, Option.some.injEq] at h
      simp [h]

theorem remAux_hasBS (b : Bool) (l : Str) : hasBS (remAux b l) = false := by
  induction l generalizing b with
  | nil => cases b <;> rfl
  | cons c rest ih =>
    rw [remAux]
    by_cases h1 : b = true ∧ c = 's'
    · rw [if_pos h1]
      exact ih true
    · rw [if_neg h1]
      by_cases h2 : c = '\\' ∧ rest.head? = some 's'
      · rw [if_pos h2]
        exact ih true
      · rw [if_neg h2]
        cases hr : remAux false rest with
        | nil => rfl
        | cons d t =>
          rw [hasBS]
          have htail : hasBS (d :: t) = false := hr ▸ ih false
          rw [htail, Bool.or_false]
          by_cases hc : c = '\\'
          · subst hc
            by_cases hd : d = 's'
            · exfalso
              have : (remAux false rest).head? = some 's' := by rw [hr, hd]; rfl
              have := remAux_false_head rest this
              exact h2 ⟨rfl, this⟩
            · simp [hd]
          · simp [hc]

theorem remAux_false_id (l : Str) (h : hasBS l = false) : remAux false l = l := by
  induction l with
  | nil => rfl
  | cons c rest ih =>
    rw [remAux, if_neg (by simp)]
    by_cases h2 : c = '\\' ∧ rest.head? = some 's'
    · exfalso
      obtain ⟨hc, hh⟩ := h2
      cases rest with
      | nil => simp at hh
      | cons d t =>
        have hd : d = 's' := by simpa using hh
        subst hc; subst hd
        rw [hasBS] at h
        simp at h
    · rw [if_neg h2, ih (hasBS_of_cons c rest h)]

theorem remBS_hasBS (l : Str) : hasBS (remBS l) = false := remAux_hasBS false l

theorem remBS_id (l : Str) (h : hasBS l = false) : remBS l = l := remAux_false_id l h

theorem cleanCode_idem (s : Str) : cleanCode (cleanCode s) = cleanCode s := by
  unfold cleanCode
  have h1 : hasBS (remBS s) = false := remBS_hasBS s
  have h2 : hasBS (sparkTrim (remBS s)) = false := trimBy_hasBS _ _ h1
  rw [remBS_id _ h2, sparkTrim_idem]

/-! The Cleaner is idempotent. -/

theorem cleanRow_idem (hc : Bool) (r : NRow) :
    cleanRow hc (cleanRow hc r) = cleanRow hc r := by
  unfold cleanRow
  cases hc with
  | false =>
    simp only [if_neg (by simp : ¬ (false = true))]
    cases r.country_name with
    | none => rfl
    | some s => simp [sparkTrim_idem]
  | true =>
    simp only [if_pos rfl]
    cases r.country_name with
    | none =>
      cases r.country_code with
      | none => rfl
      | some c => simp [cleanCode_idem]
    | some s =>
      cases r.country_code with
      | none => simp [sparkTrim_idem]
      | some c => simp [sparkTrim_idem, cleanCode_idem]

theorem keepRow_cleanRow (hc : Bool) (r : NRow) :
    keepRow (cleanRow hc r) = keepRow r := rfl

theorem filter_map_comm (f : NRow → NRow) (q : NRow → Bool) (l : List NRow)
    (hq : ∀ r, q (f r) = q r) :
    (l.map f).filter q = (l.filter q).map f := by
  induction l with
  | nil => rfl
  | cons a t ih =>
    by_cases ha : q a = true
    · rw [List.map_cons, List.filter_cons, if_pos (by rw [hq a]; exact ha),
          List.filter_cons, if_pos ha, List.map_cons, ih]
    · rw [List.map_cons, List.filter_cons, if_neg (by rw [hq a]; exact ha),
          List.filter_cons, if_neg ha, ih]

theorem filter_self_idem (q : NRow → Bool) (l : List NRow) :
    (l.filter q).filter q = l.filter q := by
  rw [List.filter_filter]
  apply List.filter_congr
  intro x _
  cases h : q x <;> simp [h]

/-- C8: applying the Cleaner twice yields exactly the table obtained by
applying it once: the string normalizations are idempotent and the second
pass of the null filters removes nothing. -/
theorem simple_clean_idempotent (t : MeasureTable) :
    simple_clean (simple_clean t) = simple_clean t := by
  unfold simple_clean
  simp only
  congr 1
  have h1 : (t.rows.map (cleanRow t.hasCodeCol)).filter keepRow =
      (t.rows.filter keepRow).map (cleanRow t.hasCodeCol) :=
    filter_map_comm _ _ _ (keepRow_cleanRow t.hasCodeCol)
  rw [h1, List.map_map]
  have h2 : (t.rows.filter keepRow).map (cleanRow t.hasCodeCol ∘ cleanRow t.hasCodeCol) =
      (t.rows.filter keepRow).map (cleanRow t.hasCodeCol) :=
    List.map_congr_left (fun r _ => cleanRow_idem t.hasCodeCol r)
  rw [h2, filter_map_comm _ _ _ (keepRow_cleanRow t.hasCodeCol), filter_self_idem]

/-! Python substring membership agrees with substring decomposition. -/

theorem isPrefixOf_ex (l t : Str) : l.isPrefixOf t = true ↔ ∃ b, t = l ++ b := by
  induction l generalizing t with
  | nil => simp [List.isPrefixOf]
  | cons a as ih =>
    cases t with
    | nil => simp [List.isPrefixOf]
    | cons b bs =>
      rw [List.isPrefixOf, Bool.and_eq_true, ih]
      constructor
      · rintro ⟨hab, u, rfl⟩
        exact ⟨u, by simp [beq_iff_eq.mp hab]⟩
      · rintro ⟨u, hu⟩
        rw [List.cons_append] at hu
        obtain ⟨rfl, rfl⟩ := List.cons.injEq .. ▸ hu
        · exact ⟨by simp, u, rfl⟩

theorem containsSub_iff (sub s : Str) :
    containsSub sub s = true ↔ ∃ a b, s = a ++ sub ++ b := by
  unfold containsSub
  rw [List.any_eq_true]
  constructor
  · rintro ⟨t, ht, hp⟩
    obtain ⟨a, ha⟩ := (List.mem_tails t s).mp ht
    obtain ⟨b, hb⟩ := (isPrefixOf_ex sub t).mp hp
    exact ⟨a, b, by rw [← ha, hb, List.append_assoc]⟩
  · rintro ⟨a, b, rfl⟩
    refine ⟨sub ++ b, (List.mem_tails _ _).mpr ⟨a, (List.append_assoc a sub b).symm⟩, ?_⟩
    exact (isPrefixOf_ex sub (sub ++ b)).mpr ⟨b, rfl⟩

/-- C10: per-file dispatch is by case-insensitive filename substring, with
the population substrings taking precedence over gdp and gross, and the
magnitude classifier reached only when none of the four substrings occurs. -/
theorem dispatch_measure_cases (f : Str) :
    (containsSub popS (lowNm f) = true ↔ ∃ a b, lowNm f = a ++ popS ++ b) ∧
    ((containsSub popS (lowNm f) || containsSub populationS (lowNm f)) = true →
      dispatch_measure f = .population) ∧
    ((containsSub popS (lowNm f) || containsSub populationS (lowNm f)) = false →
      (containsSub gdpS (lowNm f) || containsSub grossS (lowNm f)) = true →
      dispatch_measure f = .gdp) ∧
    ((containsSub popS (lowNm f) || containsSub populationS (lowNm f)) = false →
      (containsSub gdpS (lowNm f) || containsSub grossS (lowNm f)) = false →
      dispatch_measure f = .unknown) := by
  refine ⟨containsSub_iff popS (lowNm f), ?_, ?_, ?_⟩
  · intro h
    unfold dispatch_measure
    rw [if_pos h]
  · intro h1 h2
    unfold dispatch_measure
    rw [if_neg (by rw [h1]; simp), if_pos h2]
  · intro h1 h2
    unfold dispatch_measure
    rw [if_neg (by rw [h1]; simp), if_neg (by rw [h2]; simp)]

/-- Witness for C10 at concrete file names: a name holding both pop and gdp
dispatches as population, a gross name as gdp, a neutral name to the
classifier. -/
theorem dispatch_measure_cases_witness :
    dispatch_measure ("GDP_pop.csv".data) = .population ∧
    dispatch_measure ("Gross2024.csv".data) = .gdp ∧
    dispatch_measure ("stats.csv".data) = .unknown := by
  refine ⟨(dispatch_measure_cases _).2.1 (by decide),
          (dispatch_measure_cases _).2.2.1 (by decide) (by decide),
          (dispatch_measure_cases _).2.2.2 (by decide) (by decide)⟩

/-- C3: the classifier is a deterministic function of the first 100 rows; with
no non-null value cell in that window it yields gdp, and otherwise it yields
population exactly when the mean of the absolute values exceeds 1e6, gdp
otherwise. -/
theorem classify_measure_spec (rows : List NRow) :
    (∀ rows2 : List NRow, rows2.take 100 = rows.take 100 →
      classify_measure rows2 = classify_measure rows) ∧
    ((rows.take 100).filterMap (fun r => r.value) = [] →
      classify_measure rows = .gdp) ∧
    ((rows.take 100).filterMap (fun r => r.value) ≠ [] →
      (classify_measure rows = .population ↔
        (((rows.take 100).filterMap (fun r => r.value)).map (fun v => |v|)).sum /
          ((((rows.take 100).filterMap (fun r => r.value)).length : ℚ)) > 1000000)) ∧
    (classify_measure rows = .population ∨ classify_measure rows = .gdp) := by
  refine ⟨?_, ?_, ?_, ?_⟩
  · intro rows2 h
    unfold classify_measure
    rw [h]
  · intro h
    simp only [classify_measure, h]
    rfl
  · intro hne
    simp only [classify_measure]
    have hie : ((rows.take 100).filterMap (fun r => r.value)).isEmpty = false := by
      cases hb : ((rows.take 100).filterMap (fun r => r.value)).isEmpty
      · rfl
      · exact absurd (List.isEmpty_iff.mp hb) hne
    rw [if_neg (by rw [hie]; simp)]
    set m := (((rows.take 100).filterMap (fun r => r.value)).map (fun v => |v|)).sum /
      ((((rows.take 100).filterMap (fun r => r.value)).length : ℚ)) with hm
    have hred : (match some m with
        | some a => if a ≠ 0 ∧ a > 1000000 then MeasureKind.population else MeasureKind.gdp
        | none => MeasureKind.gdp) =
        if m ≠ 0 ∧ m > 1000000 then MeasureKind.population else MeasureKind.gdp := rfl
    rw [hred]
    constructor
    · intro hcl
      by_cases hc : m ≠ 0 ∧ m > 1000000
      · exact hc.2
      · rw [if_neg hc] at hcl
        exact absurd hcl (by simp)
    · intro hgt
      have hnz : m ≠ 0 := by
        have : (0 : ℚ) < m := lt_trans (by norm_num) hgt
        exact this.ne'
      rw [if_pos ⟨hnz, hgt⟩]
  · cases hcm : classify_measure rows
    · exact Or.inl rfl
    · exact Or.inr rfl

/-- Witness for C3: a one-row sample averaging 8e6 classifies as population,
the empty sample defaults to gdp. -/
theorem classify_measure_spec_witness :
    classify_measure big_sample = .population ∧ classify_measure [] = .gdp := by
  constructor
  · refine ((classify_measure_spec big_sample).2.2.1 (by decide)).mpr ?_
    have h1 : List.filterMap (fun r => r.value) (big_sample.take 100) = [(8000000 : ℚ)] := by
      rfl
    rw [h1]
    simp only [List.map_cons, List.map_nil, List.sum_cons, List.sum_nil, List.length_cons,
      List.length_nil, add_zero]
    rw [abs_of_pos (by norm_num : (0 : ℚ) < 8000000)]
    norm_num
  · exact (classify_measure_spec []).2.1 (by decide)

/-- C5: on a wide table whose only identifier column is Country Name, the two
rename assignments of the single-identifier branch share one dict key, so only
the country_code binding survives; the normalized output has a country_code
column but no country_name column, contradicting the stated use of the single
column as both name and code. -/
theorem single_id_var_code_only :
    build_rename_map [countryNameHdrS] = [(countryNameHdrS, country_codeS)] ∧
    read_and_normalize_s bad_pop_file.cols populationS =
      .ok [country_codeS, yearS, populationS] ∧
    country_nameS ∉ [country_codeS, yearS, populationS] := by
  refine ⟨rfl, rfl, by decide⟩

/-- C6: the Cleaner leaves internal whitespace of country_code in place: the
compiled regex pattern matches a literal backslash followed by letters s, not
whitespace, so only the surrounding trim acts.  The cleaned code cell still
contains its internal space character. -/
theorem country_code_internal_ws_kept :
    (simple_clean ws_code_table).rows.map (fun r => r.country_code) =
      [some ("U SA".data)] ∧
    ' ' ∈ "U SA".data ∧
    cleanCode (" US A ".data) = "US A".data := by
  refine ⟨rfl, by decide, rfl⟩

/-- C7: the key-standardization loop before the join rebinds its loop
variable and never writes back, so a table lacking country_code reaches the
join unchanged, even though the loop body computes the fixed table. -/
theorem standardize_join_keys_noop :
    standardize_join_keys (some c7_pop_cols) (some c7_gdp_cols) =
      (some c7_pop_cols, some c7_gdp_cols) ∧
    fix_missing_code (some c7_pop_cols) = some (c7_pop_cols ++ [country_codeS]) ∧
    country_codeS ∉ c7_pop_cols := by
  refine ⟨rfl, rfl, by decide⟩

/-- C9: a single malformed file can abort the run.  The wide population file
with one identifier column normalizes to a table without country_name; the
cleaning error is caught and the file is recorded as skipped, but the
half-processed table stays assigned, and the merge stage later fails outside
any handler while the well-formed gdp file was processed correctly. -/
theorem malformed_file_aborts_run :
    run_pipeline_s [bad_pop_file, good_gdp_file] = .error ("AnalysisException".data) ∧
    (final_state [bad_pop_file, good_gdp_file]).skipped = ["pop_single.csv".data] ∧
    (final_state [bad_pop_file, good_gdp_file]).pop =
      some [country_codeS, yearS, populationS] ∧
    (final_state [bad_pop_file, good_gdp_file]).gdp =
      some [country_nameS, country_codeS, yearS, gdpS] ∧
    run_pipeline_s [good_gdp_file] = .ok (some [country_nameS, country_codeS, yearS, gdpS, populationS]) := by
  refine ⟨rfl, rfl, rfl, rfl, rfl⟩

/-! The backward scan of the value-column selection picks the rightmost
matching column. -/

theorem find?_filter_head {α : Type} (p : α → Bool) (l : List α) :
    l.find? p = (l.filter p).head? := by
  induction l with
  | nil => rfl
  | cons a t ih =>
    by_cases h : p a = true
    · rw [List.find?_cons, List.filter_cons]
      simp only [h, if_pos]
      rfl
    · rw [List.find?_cons, List.filter_cons]
      have hb : p a = false := by cases hpa : p a
        <;> first | rfl | exact absurd hpa h
      simp only [hb, Bool.false_eq_true, if_neg, ih]
      rfl

theorem find?_reverse_getLast {α : Type} (p : α → Bool) (l : List α) :
    l.reverse.find? p = (l.filter p).getLast? := by
  rw [find?_filter_head, List.filter_reverse, ← List.getLast?_eq_head?_reverse]

/-- C4 amended: the value-column selection matches the three names value,
measure name, val as one set in a single backward scan: the rightmost column
whose lowercase name equals any of the three wins, with no priority among the
names; when none matches, the last non-identifier column is taken, else the
last column. -/
theorem selectValueCol_rightmost (cols : List Str) (measure : Str) :
    selectValueCol cols measure =
      if (cols.filter (isValueColName measure)).isEmpty then
        (if (cols.filter isNonIdName).isEmpty then cols.getLast?
         else (cols.filter isNonIdName).getLast?)
      else (cols.filter (isValueColName measure)).getLast? := by
  unfold selectValueCol
  rw [find?_reverse_getLast]
  by_cases h : (cols.filter (isValueColName measure)).isEmpty = true
  · rw [if_pos h]
    rw [List.isEmpty_iff.mp h]
    simp only [List.getLast?_nil]
  · rw [if_neg h]
    cases hg : (cols.filter (isValueColName measure)).getLast? with
    | none =>
      exfalso
      apply h
      rw [List.isEmpty_iff]
      cases hf : cols.filter (isValueColName measure) with
      | nil => rfl
      | cons x xs =>
        rw [hf] at hg
        simp [List.getLast?_concat] at hg
    | some c => rfl

/-- C4 counterexample: with both value and val present and val further right,
the code picks val while the priority-order description picks value; the
claimed priority order does not describe the code. -/
theorem selectValueCol_priority_counterexample :
    selectValueCol c4_cols ("gdp".data) = some ("val".data) ∧
    selectValueColSpec c4_cols ("gdp".data) = some ("value".data) ∧
    selectValueCol c4_cols ("gdp".data) ≠ selectValueColSpec c4_cols ("gdp".data) := by
  refine ⟨rfl, rfl, by decide⟩

/-! Helper lemmas for the reshaper. -/

theorem length_flatMap_const {α β : Type} (l : List α) (f : α → List β) (n : ℕ)
    (h : ∀ a ∈ l, (f a).length = n) : (l.flatMap f).length = l.length * n := by
  induction l with
  | nil => simp
  | cons a t ih =>
    rw [List.flatMap_cons, List.length_append, h a (List.mem_cons_self a t),
        ih (fun b hb => h b (List.mem_cons_of_mem a hb)), List.length_cons]
    ring

theorem countP_flatMap {α β : Type} (p : β → Bool) (l : List α) (f : α → List β) :
    (l.flatMap f).countP p = (l.map (fun a => (f a).countP p)).sum := by
  induction l with
  | nil => rfl
  | cons a t ih =>
    rw [List.flatMap_cons, List.countP_append, ih, List.map_cons, List.sum_cons]

theorem sum_map_indicator {α : Type} (l : List α) (q : α → Bool) :
    (l.map (fun a => if q a = true then 1 else 0)).sum = l.countP q := by
  induction l with
  | nil => rfl
  | cons a t ih =>
    rw [List.map_cons, List.sum_cons, ih, List.countP_cons]
    omega

theorem countP_eq_one_unique {α : Type} (l : List α) (q : α → Bool) (x : α)
    (hx : x ∈ l) (hnd : l.Nodup) (hq : ∀ y ∈ l, (q y = true ↔ y = x)) :
    l.countP q = 1 := by
  induction l with
  | nil => simp at hx
  | cons a t ih =>
    rw [List.countP_cons]
    rcases List.mem_cons.mp hx with rfl | hxt
    · have hqa : q x = true := (hq x (List.mem_cons_self x t)).mpr rfl
      have ht0 : t.countP q = 0 := by
        rw [List.countP_eq_zero]
        intro b hb hqb
        have hbx : b = x := (hq b (List.mem_cons_of_mem x hb)).mp hqb
        exact (List.nodup_cons.mp hnd).1 (hbx ▸ hb)
      rw [ht0, hqa]
      rfl
    · have hqa : q a = false := by
        cases hb : q a
        · rfl
        · have : a = x := (hq a (List.mem_cons_self a t)).mp hb
          exact absurd (this ▸ hxt) (List.nodup_cons.mp hnd).1
      rw [ih hxt (List.nodup_cons.mp hnd).2
            (fun y hy => hq y (List.mem_cons_of_mem a hy)), hqa]
      rfl

theorem flatMap_chunk {α β : Type} (l : List α) (f : α → List β) (n : ℕ)
    (h : ∀ a ∈ l, (f a).length = n) (i : ℕ) (hi : i < l.length) :
    ((l.flatMap f).drop (i * n)).take n = f (l.get ⟨i, hi⟩) := by
  induction l generalizing i with
  | nil => simp at hi
  | cons a t ih =>
    cases i with
    | zero =>
      rw [Nat.zero_mul, List.drop_zero, List.flatMap_cons]
      have ha := h a (List.mem_cons_self a t)
      rw [← ha, List.take_left]
      rfl
    | succ i' =>
      have ha := h a (List.mem_cons_self a t)
      rw [List.flatMap_cons]
      have hdrop : (f a ++ t.flatMap f).drop ((i' + 1) * n) = (t.flatMap f).drop (i' * n) := by
        have : (i' + 1) * n = n + i' * n := by ring
        rw [this, ← List.drop_drop, ← ha, List.drop_left]
      rw [hdrop]
      exact ih (fun b hb => h b (List.mem_cons_of_mem a hb)) i' (Nat.lt_of_succ_lt_succ hi)

/-- C2: on a wide table with year-like columns, the Reshaper succeeds and
emits exactly rows-times-years output rows, each with one cell per identifier
column plus the year and value fields; when identifier tuples are distinct
and year columns are not duplicated, every (identifier-tuple, year) pair
appears exactly once, carrying the correct cell value; and within each source
row block the years appear in original header order. -/
theorem wide_to_long_reshape_correct {α : Type} [DecidableEq α]
    (t : WTable α) (id_vars : List Str)
    (hy : t.cols.filter is_year_col ≠ [])
    (hnody : (t.cols.filter is_year_col).Nodup)
    (hnodid : (t.rows.map (fun r => id_vars.map (fun c => cellAt t.cols r c))).Nodup) :
    wide_to_long t id_vars = some (reshape_rows t id_vars) ∧
    (reshape_rows t id_vars).length =
      t.rows.length * (t.cols.filter is_year_col).length ∧
    (∀ o ∈ reshape_rows t id_vars, o.ids.length = id_vars.length) ∧
    (∀ (i : ℕ) (hi : i < t.rows.length) (j : ℕ)
        (hj : j < (t.cols.filter is_year_col).length),
      (reshape_rows t id_vars).countP (fun o => decide
        (o.ids = id_vars.map (fun c => cellAt t.cols (t.rows.get ⟨i, hi⟩) c) ∧
         o.year = (t.cols.filter is_year_col).get ⟨j, hj⟩ ∧
         o.value = cellAt t.cols (t.rows.get ⟨i, hi⟩)
           ((t.cols.filter is_year_col).get ⟨j, hj⟩))) = 1) ∧
    (∀ (i : ℕ) (hi : i < t.rows.length),
      (((reshape_rows t id_vars).drop (i * (t.cols.filter is_year_col).length)).take
        (t.cols.filter is_year_col).length).map (fun o => o.year) =
        t.cols.filter is_year_col) := by
  have hflen : ∀ r ∈ t.rows,
      ((t.cols.filter is_year_col).map (fun y =>
        (⟨id_vars.map (fun c => cellAt t.cols r c), y, cellAt t.cols r y⟩ : LRow α))).length =
      (t.cols.filter is_year_col).length := fun r _ => List.length_map _ _
  refine ⟨?_, ?_, ?_, ?_, ?_⟩
  · have h : wide_to_long t id_vars =
        if (t.cols.filter is_year_col).isEmpty then none
        else some (reshape_rows t id_vars) := rfl
    rw [h, if_neg (fun hh => hy (List.isEmpty_iff.mp hh))]
  · unfold reshape_rows
    exact length_flatMap_const _ _ _ hflen
  · intro o ho
    unfold reshape_rows at ho
    obtain ⟨r, hr, ho2⟩ := List.mem_flatMap.mp ho
    obtain ⟨y, hyy, rfl⟩ := List.mem_map.mp ho2
    exact List.length_map _ _
  · intro i hi j hj
    unfold reshape_rows
    rw [countP_flatMap]
    have hrowi : t.rows.get ⟨i, hi⟩ ∈ t.rows := List.get_mem _ _ _
    have hyj : (t.cols.filter is_year_col).get ⟨j, hj⟩ ∈ t.cols.filter is_year_col :=
      List.get_mem _ _ _
    have hpt : ∀ r ∈ t.rows,
        ((t.cols.filter is_year_col).map (fun y =>
          (⟨id_vars.map (fun c => cellAt t.cols r c), y, cellAt t.cols r y⟩ : LRow α))).countP
          (fun o => decide
            (o.ids = id_vars.map (fun c => cellAt t.cols (t.rows.get ⟨i, hi⟩) c) ∧
             o.year = (t.cols.filter is_year_col).get ⟨j, hj⟩ ∧
             o.value = cellAt t.cols (t.rows.get ⟨i, hi⟩)
               ((t.cols.filter is_year_col).get ⟨j, hj⟩))) =
          if decide (r = t.rows.get ⟨i, hi⟩) = true then 1 else 0 := by
      intro r hr
      rw [List.countP_map]
      by_cases hreq : r = t.rows.get ⟨i, hi⟩
      · rw [if_pos (by rw [hreq]; simp)]
        subst hreq
        apply countP_eq_one_unique _ _ ((t.cols.filter is_year_col).get ⟨j, hj⟩) hyj hnody
        intro y hyy
        constructor
        · intro hp
          have hp2 := of_decide_eq_true hp
          exact hp2.2.1
        · intro hyeq
          subst hyeq
          exact decide_eq_true ⟨rfl, rfl, rfl⟩
      · rw [if_neg (by simpa using hreq)]
        rw [List.countP_eq_zero]
        intro y hyy hp
        have hp2 := of_decide_eq_true hp
        have hids : id_vars.map (fun c => cellAt t.cols r c) =
            id_vars.map (fun c => cellAt t.cols (t.rows.get ⟨i, hi⟩) c) := hp2.1
        exact hreq (List.inj_on_of_nodup_map hnodid hr hrowi hids)
    rw [List.map_congr_left hpt, sum_map_indicator]
    apply countP_eq_one_unique _ _ (t.rows.get ⟨i, hi⟩) hrowi
      (List.Nodup.of_map _ hnodid)
    intro y hyy
    simp
  · intro i hi
    unfold reshape_rows
    rw [flatMap_chunk t.rows _ (t.cols.filter is_year_col).length hflen i hi, List.map_map]
    have hcomp : ((fun o : LRow α => o.year) ∘ (fun y =>
        (⟨id_vars.map (fun c => cellAt t.cols (t.rows.get ⟨i, hi⟩) c), y,
          cellAt t.cols (t.rows.get ⟨i, hi⟩) y⟩ : LRow α))) = fun y => y := rfl
    rw [hcomp]
    exact List.map_id _

/-- Witness for C2: the Aland example of the spec, with two year columns and
one data row. -/
theorem wide_to_long_reshape_correct_witness :
    wide_to_long aland_table [countryNameHdrS, countryCodeHdrS] =
      some (reshape_rows aland_table [countryNameHdrS, countryCodeHdrS]) ∧
    (reshape_rows aland_table [countryNameHdrS, countryCodeHdrS]).length = 1 * 2 ∧
    (reshape_rows aland_table [countryNameHdrS, countryCodeHdrS]).countP (fun o => decide
      (o.ids = [some ("Aland".data), some ("ALA".data)] ∧
       o.year = "2020".data ∧ o.value = some ("100".data))) = 1 := by
  have h := wide_to_long_reshape_correct aland_table [countryNameHdrS, countryCodeHdrS]
    (by decide) (by decide) (by decide)
  refine ⟨h.1, ?_, ?_⟩
  · have h2 := h.2.1
    rw [h2]
    rfl
  · have h4 := h.2.2.2.1 0 (by decide) 0 (by decide)
    have heq : (reshape_rows aland_table [countryNameHdrS, countryCodeHdrS]).countP (fun o => decide
        (o.ids = [some ("Aland".data), some ("ALA".data)] ∧
         o.year = "2020".data ∧ o.value = some ("100".data))) =
        (reshape_rows aland_table [countryNameHdrS, countryCodeHdrS]).countP (fun o => decide
        (o.ids = [countryNameHdrS, countryCodeHdrS].map
            (fun c => cellAt aland_table.cols (aland_table.rows.get ⟨0, by decide⟩) c) ∧
         o.year = (aland_table.cols.filter is_year_col).get ⟨0, by decide⟩ ∧
         o.value = cellAt aland_table.cols (aland_table.rows.get ⟨0, by decide⟩)
           ((aland_table.cols.filter is_year_col).get ⟨0, by decide⟩))) := by decide
    rw [heq]
    exact h4

/-! Helper lemmas for the merge stage. -/

theorem sqlEq_iff {α : Type} [DecidableEq α] (a b : Option α) :
    sqlEq a b = true ↔ ∃ x, a = some x ∧ b = some x := by
  cases a with
  | none => simp [sqlEq]
  | some x =>
    cases b with
    | none => simp [sqlEq]
    | some y =>
      simp only [sqlEq, decide_eq_true_eq]
      constructor
      · rintro rfl
        exact ⟨x, rfl, rfl⟩
      · rintro ⟨z, hz1, hz2⟩
        rw [Option.some.injEq] at hz1 hz2
        rw [hz1, hz2]

theorem join_match_iff (p g : NRow) :
    join_match p g = true ↔
      (∃ c, p.country_code = some c ∧ g.country_code = some c) ∧
      (∃ y, p.year = some y ∧ g.year = some y) := by
  unfold join_match
  rw [Bool.and_eq_true, sqlEq_iff, sqlEq_iff]

theorem jkey_bothRow_left (p g : NRow) (h : join_match p g = true) :
    jkey (bothRow p g) = (p.country_code, p.year) := by
  obtain ⟨⟨c, hc1, _⟩, ⟨y, hy1, _⟩⟩ := (join_match_iff p g).mp h
  unfold jkey bothRow
  rw [hc1, hy1]
  rfl

theorem jkey_bothRow_right (p g : NRow) (h : join_match p g = true) :
    jkey (bothRow p g) = (g.country_code, g.year) := by
  obtain ⟨⟨c, hc1, hc2⟩, ⟨y, hy1, hy2⟩⟩ := (join_match_iff p g).mp h
  unfold jkey bothRow
  rw [hc1, hy1, hc2, hy2]
  rfl

theorem mem_outer_join (pop gdp : List NRow) (r : MergedRow) :
    r ∈ outer_join pop gdp ↔
      (∃ p ∈ pop, (gdp.filter (join_match p)).isEmpty = true ∧ r = leftRow p) ∨
      (∃ p ∈ pop, ∃ g ∈ gdp.filter (join_match p), r = bothRow p g) ∨
      (∃ g ∈ gdp.filter (fun g => !(pop.any (fun p => join_match p g))), r = rightRow g) := by
  unfold outer_join
  rw [List.mem_append, List.mem_flatMap]
  constructor
  · rintro (⟨p, hp, hin⟩ | hB)
    · by_cases hms : (gdp.filter (join_match p)).isEmpty = true
      · rw [if_pos hms] at hin
        exact Or.inl ⟨p, hp, hms, by simpa using hin⟩
      · rw [if_neg hms] at hin
        obtain ⟨g, hg, rfl⟩ := List.mem_map.mp hin
        exact Or.inr (Or.inl ⟨p, hp, g, hg, rfl⟩)
    · obtain ⟨g, hg, rfl⟩ := List.mem_map.mp hB
      exact Or.inr (Or.inr ⟨g, hg, rfl⟩)
  · rintro (⟨p, hp, hms, rfl⟩ | ⟨p, hp, g, hg, rfl⟩ | ⟨g, hg, rfl⟩)
    · exact Or.inl ⟨p, hp, by rw [if_pos hms]; simp⟩
    · refine Or.inl ⟨p, hp, ?_⟩
      have hne : (gdp.filter (join_match p)).isEmpty ≠ true := by
        intro hh
        rw [List.isEmpty_iff.mp hh] at hg
        simp at hg
      rw [if_neg hne]
      exact List.mem_map.mpr ⟨g, hg, rfl⟩
    · exact Or.inr (List.mem_map.mpr ⟨g, hg, rfl⟩)

theorem outer_join_key_present (pop gdp : List NRow) (k : Option Str × Option Int)
    (h : presentIn pop k ∨ presentIn gdp k) :
    (outer_join pop gdp).any (fun r => decide (jkey r = k)) = true := by
  rw [List.any_eq_true]
  rcases h with ⟨p, hp, hkey⟩ | ⟨g, hg, hkey⟩
  · by_cases hms : (gdp.filter (join_match p)).isEmpty = true
    · refine ⟨leftRow p, (mem_outer_join pop gdp _).mpr (Or.inl ⟨p, hp, hms, rfl⟩), ?_⟩
      exact decide_eq_true hkey
    · have hne : gdp.filter (join_match p) ≠ [] := by
        intro hh
        exact hms (by rw [hh]; rfl)
      obtain ⟨g, hg⟩ := List.exists_mem_of_ne_nil _ hne
      have hjm : join_match p g = true := (List.mem_filter.mp hg).2
      refine ⟨bothRow p g, (mem_outer_join pop gdp _).mpr (Or.inr (Or.inl ⟨p, hp, g, hg, rfl⟩)), ?_⟩
      rw [jkey_bothRow_left p g hjm]
      exact decide_eq_true hkey
  · by_cases hpm : pop.any (fun p => join_match p g) = true
    · obtain ⟨p, hp, hjm⟩ := List.any_eq_true.mp hpm
      have hgf : g ∈ gdp.filter (join_match p) := List.mem_filter.mpr ⟨hg, hjm⟩
      refine ⟨bothRow p g, (mem_outer_join pop gdp _).mpr (Or.inr (Or.inl ⟨p, hp, g, hgf, rfl⟩)), ?_⟩
      rw [jkey_bothRow_right p g hjm]
      exact decide_eq_true hkey
    · have hgf : g ∈ gdp.filter (fun g => !(pop.any (fun p => join_match p g))) := by
        refine List.mem_filter.mpr ⟨hg, ?_⟩
        have hpm2 : pop.any (fun p => join_match p g) = false := by
          cases hb : pop.any (fun p => join_match p g)
          · rfl
          · exact absurd hb hpm
        rw [hpm2]
        rfl
      refine ⟨rightRow g, (mem_outer_join pop gdp _).mpr (Or.inr (Or.inr ⟨g, hgf, rfl⟩)), ?_⟩
      exact decide_eq_true hkey

theorem outer_join_gdp_null (pop gdp : List NRow) (k : Option Str × Option Int)
    (hng : ¬ presentIn gdp k) :
    ∀ r ∈ outer_join pop gdp, jkey r = k → r.gdp = none := by
  intro r hr hkey
  rcases (mem_outer_join pop gdp r).mp hr with ⟨p, _, _, rfl⟩ | ⟨p, _, g, hg, rfl⟩ | ⟨g, hg, rfl⟩
  · rfl
  · exfalso
    have hjm : join_match p g = true := (List.mem_filter.mp hg).2
    rw [jkey_bothRow_right p g hjm] at hkey
    exact hng ⟨g, (List.mem_filter.mp hg).1, hkey⟩
  · exfalso
    exact hng ⟨g, (List.mem_filter.mp hg).1, hkey⟩

theorem outer_join_pop_null (pop gdp : List NRow) (k : Option Str × Option Int)
    (hnp : ¬ presentIn pop k) :
    ∀ r ∈ outer_join pop gdp, jkey r = k → r.population = none := by
  intro r hr hkey
  rcases (mem_outer_join pop gdp r).mp hr with ⟨p, hp, _, rfl⟩ | ⟨p, hp, g, hg, rfl⟩ | ⟨g, _, rfl⟩
  · exact absurd ⟨p, hp, hkey⟩ hnp
  · exfalso
    have hjm : join_match p g = true := (List.mem_filter.mp hg).2
    rw [jkey_bothRow_left p g hjm] at hkey
    exact hnp ⟨p, hp, hkey⟩
  · rfl

theorem dropDupAux_countP (l : List MergedRow) :
    ∀ (seen : List (Option Str × Option Int)) (k : Option Str × Option Int),
    (dropDupAux seen l).countP (fun r => decide (jkey r = k)) =
      if k ∈ seen then 0
      else if l.any (fun r => decide (jkey r = k)) then 1 else 0 := by
  induction l with
  | nil =>
    intro seen k
    by_cases hk : k ∈ seen
    · simp [dropDupAux, hk]
    · simp [dropDupAux, hk]
  | cons r rest ih =>
    intro seen k
    rw [dropDupAux]
    by_cases hr : jkey r ∈ seen
    · rw [if_pos hr, ih seen k]
      by_cases hk : k ∈ seen
      · rw [if_pos hk, if_pos hk]
      · rw [if_neg hk, if_neg hk]
        have hne : ¬ (jkey r = k) := fun hh => hk (hh ▸ hr)
        have : (r :: rest).any (fun x => decide (jkey x = k)) =
            rest.any (fun x => decide (jkey x = k)) := by
          rw [List.any_cons]
          rw [decide_eq_false hne]
          simp
        rw [this]
    · rw [if_neg hr, List.countP_cons, ih (jkey r :: seen) k]
      by_cases hrk : jkey r = k
      · have hkmem : k ∈ jkey r :: seen := by
          rw [← hrk]
          exact List.mem_cons_self _ _
        rw [if_pos hkmem, if_neg (fun hh => hr (hrk.symm ▸ hh))]
        have hany : (r :: rest).any (fun x => decide (jkey x = k)) = true := by
          rw [List.any_cons, decide_eq_true hrk]
          simp
        rw [hany, decide_eq_true hrk]
        simp
      · have hmem : (k ∈ jkey r :: seen) ↔ (k ∈ seen) := by
          rw [List.mem_cons]
          constructor
          · rintro (rfl | hh)
            · exact absurd rfl hrk
            · exact hh
          · exact Or.inr
        rw [decide_eq_false hrk]
        by_cases hk : k ∈ seen
        · rw [if_pos (hmem.mpr hk), if_pos hk]
          simp
        · rw [if_neg (fun hh => hk (hmem.mp hh)), if_neg hk]
          have : (r :: rest).any (fun x => decide (jkey x = k)) =
              rest.any (fun x => decide (jkey x = k)) := by
            rw [List.any_cons, decide_eq_false hrk]
            simp
          rw [this]
          simp

theorem dropDupAux_subset (l : List MergedRow) :
    ∀ (seen : List (Option Str × Option Int)) (r : MergedRow),
    r ∈ dropDupAux seen l → r ∈ l := by
  induction l with
  | nil => intro seen r hr; exact absurd hr (by simp [dropDupAux])
  | cons x rest ih =>
    intro seen r hr
    rw [dropDupAux] at hr
    by_cases hx : jkey x ∈ seen
    · rw [if_pos hx] at hr
      exact List.mem_cons_of_mem x (ih seen r hr)
    · rw [if_neg hx] at hr
      rcases List.mem_cons.mp hr with rfl | hh
      · exact List.mem_cons_self _ _
      · exact List.mem_cons_of_mem x (ih _ r hh)

/-- C1: merge completeness and uniqueness.  For every key present in either
cleaned input table the merged output holds exactly one row with that key;
no key is duplicated; a key present on only one side keeps the other measure
null rather than dropping the row; and in the degenerate single-table paths
the same completeness and uniqueness hold, with the absent measure null on
every row. -/
theorem merge_outer_complete_unique (pop gdp : List NRow) (k : Option Str × Option Int) :
    ((presentIn pop k ∨ presentIn gdp k) → countKey (merge_tables pop gdp) k = 1) ∧
    countKey (merge_tables pop gdp) k ≤ 1 ∧
    (presentIn pop k → ¬ presentIn gdp k →
      ∀ r ∈ merge_tables pop gdp, jkey r = k → r.gdp = none) ∧
    (presentIn gdp k → ¬ presentIn pop k →
      ∀ r ∈ merge_tables pop gdp, jkey r = k → r.population = none) ∧
    (presentIn pop k → countKey (merge_single_pop pop) k = 1) ∧
    countKey (merge_single_pop pop) k ≤ 1 ∧
    (∀ r ∈ merge_single_pop pop, r.gdp = none) ∧
    (presentIn gdp k → countKey (merge_single_gdp gdp) k = 1) ∧
    countKey (merge_single_gdp gdp) k ≤ 1 ∧
    (∀ r ∈ merge_single_gdp gdp, r.population = none) := by
  refine ⟨?_, ?_, ?_, ?_, ?_, ?_, ?_, ?_, ?_, ?_⟩
  · intro h
    unfold merge_tables dropDuplicates countKey
    rw [dropDupAux_countP _ [] k, if_neg (by simp),
        if_pos (outer_join_key_present pop gdp k h)]
  · unfold merge_tables dropDuplicates countKey
    rw [dropDupAux_countP _ [] k, if_neg (by simp)]
    by_cases ha : (outer_join pop gdp).any (fun r => decide (jkey r = k)) = true
    · rw [if_pos ha]
    · rw [if_neg ha]
      omega
  · intro hp hng r hr hkey
    exact outer_join_gdp_null pop gdp k hng r
      (dropDupAux_subset _ [] r hr) hkey
  · intro hg hnp r hr hkey
    exact outer_join_pop_null pop gdp k hnp r
      (dropDupAux_subset _ [] r hr) hkey
  · rintro ⟨p, hp, hkey⟩
    unfold merge_single_pop dropDuplicates countKey
    rw [dropDupAux_countP _ [] k, if_neg (by simp)]
    have hany : (pop.map leftRow).any (fun r => decide (jkey r = k)) = true := by
      rw [List.any_eq_true]
      exact ⟨leftRow p, List.mem_map.mpr ⟨p, hp, rfl⟩, decide_eq_true hkey⟩
    rw [if_pos hany]
  · unfold merge_single_pop dropDuplicates countKey
    rw [dropDupAux_countP _ [] k, if_neg (by simp)]
    by_cases ha : (pop.map leftRow).any (fun r => decide (jkey r = k)) = true
    · rw [if_pos ha]
    · rw [if_neg ha]
      omega
  · intro r hr
    obtain ⟨p, _, rfl⟩ := List.mem_map.mp (dropDupAux_subset _ [] r hr)
    rfl
  · rintro ⟨g, hg, hkey⟩
    unfold merge_single_gdp dropDuplicates countKey
    rw [dropDupAux_countP _ [] k, if_neg (by simp)]
    have hany : (gdp.map rightRow).any (fun r => decide (jkey r = k)) = true := by
      rw [List.any_eq_true]
      exact ⟨rightRow g, List.mem_map.mpr ⟨g, hg, rfl⟩, decide_eq_true hkey⟩
    rw [if_pos hany]
  · unfold merge_single_gdp dropDuplicates countKey
    rw [dropDupAux_countP _ [] k, if_neg (by simp)]
    by_cases ha : (gdp.map rightRow).any (fun r => decide (jkey r = k)) = true
    · rw [if_pos ha]
    · rw [if_neg ha]
      omega
  · intro r hr
    obtain ⟨g, _, rfl⟩ := List.mem_map.mp (dropDupAux_subset _ [] r hr)
    rfl

/-- Witness for C1: the USA 2020 key of the spec example is present on both
sides and the merged output carries it exactly once, and also exactly once
when only the population table is available. -/
theorem merge_outer_complete_unique_witness :
    presentIn usa_pop_rows (some ("USA".data), some 2020) ∧
    countKey (merge_tables usa_pop_rows usa_gdp_rows) (some ("USA".data), some 2020) = 1 ∧
    countKey (merge_single_pop usa_pop_rows) (some ("USA".data), some 2020) = 1 := by
  have hp : presentIn usa_pop_rows (some ("USA".data), some 2020) := by
    refine ⟨⟨some ("United States".data), some ("USA".data), some 2020, some 331000000⟩, ?_, rfl⟩
    exact List.mem_singleton.mpr rfl
  have h := merge_outer_complete_unique usa_pop_rows usa_gdp_rows
    (some ("USA".data), some 2020)
  exact ⟨hp, h.1 (Or.inl hp), h.2.2.2.2.1 hp⟩
